import Mathlib

/-!
Verification of the partitioned ingestion-merge-load pipeline of the
stock-market-etl repository.  The Python sources under src/scripts are
shallowly embedded: polars DataFrames become lists of typed rows, the S3
object store becomes a function from partition keys to optional row lists,
and the Postgres table becomes a list of rows.  Float64 arithmetic is
modelled exactly over the rationals together with explicit IEEE special
values (positive/negative infinity and NaN); null cells are Option.
-/

namespace StockEtl

/-! ### Dates

A calendar date, split so that the year component (polars dt.year) is
directly available; sub is the position of the day within the year.
Ordering is lexicographic. -/

structure Date where
  year : Nat
  sub : Nat
deriving DecidableEq, Repr

def dateLt (a b : Date) : Prop :=
  a.year < b.year ∨ (a.year = b.year ∧ a.sub < b.sub)

instance (a b : Date) : Decidable (dateLt a b) :=
  inferInstanceAs (Decidable (a.year < b.year ∨ (a.year = b.year ∧ a.sub < b.sub)))

theorem dateLt_asymm {a b : Date} (h : dateLt a b) : ¬ dateLt b a := by
  rcases h with h | ⟨h1, h2⟩ <;> rintro (g | ⟨g1, g2⟩) <;> omega

theorem dateLt_ne {a b : Date} (h : dateLt a b) : a ≠ b := by
  rintro rfl
  rcases h with h | ⟨h1, h2⟩ <;> omega

/-! ### Float64 values

Exact model of the IEEE float64 values that the pipeline can produce:
finite values are kept as exact rationals, and the special values inf,
-inf and NaN are explicit.  sqrtv q stands for the (possibly irrational)
nonnegative square root of the nonnegative rational q; no property below
compares square-root values numerically, so this symbolic form suffices. -/

inductive FVal where
  | fin (q : ℚ)
  | pinf
  | ninf
  | nan
  | sqrtv (q : ℚ)
deriving DecidableEq, Repr

/-! ### Rows

PriceRow as produced by the fetcher and stored in raw partitions
(columns date, open, high, low, close, volume, ticker, ingest_ts of
ingest_hourly.py; volume already cast to Int64 as in load_raw_df). -/

structure RawRow where
  ticker : String
  date : Date
  opn : ℚ
  high : ℚ
  low : ℚ
  close : ℚ
  volume : Int
  ingestTs : Nat
deriving DecidableEq, Repr

/-- EnrichedRow: the raw columns plus the two computed metric columns
daily_return and rolling_vol_30d of transform.py; both nullable. -/
structure EnrichedRow where
  raw : RawRow
  daily_return : Option FVal
  rolling_vol_30d : Option FVal
deriving DecidableEq, Repr

/-- Dedup key used by save_partitioned_parquet: subset=[date, ticker]. -/
def kDT (r : RawRow) : Date × String := (r.date, r.ticker)

/-- Dedup key used by load_to_stock_metrics: subset=[ticker, date]. -/
def kTD (e : EnrichedRow) : String × Date := (e.raw.ticker, e.raw.date)

/-! ### Deduplication

polars DataFrame.unique(subset=key) with its default keep=any removes
duplicate keys but gives no guarantee about which of the colliding rows
survives, nor about row order.  DedupBy key input output states exactly
that output is an admissible result: its keys are pairwise distinct, every
output row is one of the input rows, and every input key is represented. -/

def DedupBy {α κ : Type} (key : α → κ) (input output : List α) : Prop :=
  (output.map key).Nodup ∧
  (∀ r ∈ output, r ∈ input) ∧
  (∀ r ∈ input, ∃ r2 ∈ output, key r2 = key r)

instance {α κ : Type} [DecidableEq α] [DecidableEq κ] (key : α → κ)
    (input output : List α) : Decidable (DedupBy key input output) :=
  inferInstanceAs (Decidable ((output.map key).Nodup ∧
    (∀ r ∈ output, r ∈ input) ∧
    (∀ r ∈ input, ∃ r2 ∈ output, key r2 = key r)))

/-- One concrete admissible deduplication: keep the first row of each key
group, in input order.  seen accumulates the keys already emitted. -/
def dedupFirstAux {α κ : Type} [DecidableEq κ] (key : α → κ) (seen : List κ) :
    List α → List α
  | [] => []
  | x :: xs =>
    if key x ∈ seen then dedupFirstAux key seen xs
    else x :: dedupFirstAux key (key x :: seen) xs

def dedupKeepFirst {α κ : Type} [DecidableEq κ] (key : α → κ) (l : List α) :
    List α :=
  dedupFirstAux key [] l

theorem dedupFirstAux_subset {α κ : Type} [DecidableEq κ] (key : α → κ) :
    ∀ (l : List α) (seen : List κ), ∀ r ∈ dedupFirstAux key seen l, r ∈ l := by
  intro l
  induction l with
  | nil => intro seen r hr; simp [dedupFirstAux] at hr
  | cons x xs ih =>
    intro seen r hr
    by_cases hx : key x ∈ seen
    · simp only [dedupFirstAux, if_pos hx] at hr
      exact List.mem_cons_of_mem _ (ih seen r hr)
    · simp only [dedupFirstAux, if_neg hx, List.mem_cons] at hr
      rcases hr with rfl | hr
      · exact List.mem_cons_self _ _
      · exact List.mem_cons_of_mem _ (ih _ r hr)

theorem dedupFirstAux_keys_fresh {α κ : Type} [DecidableEq κ] (key : α → κ) :
    ∀ (l : List α) (seen : List κ) (k : κ), k ∈ seen →
      k ∉ (dedupFirstAux key seen l).map key := by
  intro l
  induction l with
  | nil => intro seen k hk; simp [dedupFirstAux]
  | cons x xs ih =>
    intro seen k hk
    by_cases hx : key x ∈ seen
    · simp only [dedupFirstAux, if_pos hx]
      exact ih seen k hk
    · simp only [dedupFirstAux, if_neg hx, List.map_cons, List.mem_cons]
      rintro (rfl | hmem)
      · exact hx hk
      · exact ih (key x :: seen) k (List.mem_cons_of_mem _ hk) hmem

theorem dedupFirstAux_nodup {α κ : Type} [DecidableEq κ] (key : α → κ) :
    ∀ (l : List α) (seen : List κ),
      ((dedupFirstAux key seen l).map key).Nodup := by
  intro l
  induction l with
  | nil => intro seen; simp [dedupFirstAux]
  | cons x xs ih =>
    intro seen
    by_cases hx : key x ∈ seen
    · simp only [dedupFirstAux, if_pos hx]; exact ih seen
    · simp only [dedupFirstAux, if_neg hx, List.map_cons, List.nodup_cons]
      exact ⟨dedupFirstAux_keys_fresh key xs (key x :: seen) (key x)
          (List.mem_cons_self _ _), ih _⟩

theorem dedupFirstAux_covers {α κ : Type} [DecidableEq κ] (key : α → κ) :
    ∀ (l : List α) (seen : List κ), ∀ r ∈ l, key r ∈ seen ∨
      ∃ r2 ∈ dedupFirstAux key seen l, key r2 = key r := by
  intro l
  induction l with
  | nil => intro seen r hr; cases hr
  | cons x xs ih =>
    intro seen r hr
    rcases List.mem_cons.mp hr with rfl | hr
    · by_cases hx : key r ∈ seen
      · exact Or.inl hx
      · refine Or.inr ⟨r, ?_, rfl⟩
        simp [dedupFirstAux, if_neg hx]
    · by_cases hx : key x ∈ seen
      · rcases ih seen r hr with h | ⟨r2, h2, hk⟩
        · exact Or.inl h
        · exact Or.inr ⟨r2, by simpa [dedupFirstAux, if_pos hx] using h2, hk⟩
      · rcases ih (key x :: seen) r hr with h | ⟨r2, h2, hk⟩
        · rcases List.mem_cons.mp h with h | h
          · refine Or.inr ⟨x, ?_, h.symm⟩
            simp [dedupFirstAux, if_neg hx]
          · exact Or.inl h
        · refine Or.inr ⟨r2, ?_, hk⟩
          simp only [dedupFirstAux, if_neg hx, List.mem_cons]
          exact Or.inr h2

theorem dedupKeepFirst_spec {α κ : Type} [DecidableEq κ] (key : α → κ)
    (l : List α) : DedupBy key l (dedupKeepFirst key l) := by
  refine ⟨dedupFirstAux_nodup key l [], dedupFirstAux_subset key l [], ?_⟩
  intro r hr
  rcases dedupFirstAux_covers key l [] r hr with h | h
  · cases h
  · exact h

/-- An admissible dedup of a single row is that row alone. -/
theorem dedupBy_singleton {α κ : Type} (key : α → κ) (x : α) (u : List α)
    (h : DedupBy key [x] u) : u = [x] := by
  obtain ⟨hnd, hsub, hcov⟩ := h
  have hall : ∀ r ∈ u, r = x := by
    intro r hr
    have := hsub r hr
    simp only [List.mem_singleton] at this
    exact this
  obtain ⟨r2, hr2, _⟩ := hcov x (List.mem_cons_self _ _)
  match u, hr2 with
  | r :: us, _ =>
    have hrx : r = x := hall r (List.mem_cons_self _ _)
    cases us with
    | nil => simp [hrx]
    | cons s ss =>
      exfalso
      have hsx : s = x := hall s (by simp)
      simp only [List.map_cons, List.nodup_cons, List.mem_cons] at hnd
      exact hnd.1 (Or.inl (by rw [hrx, hsx]))

/-! ### Ingestion Merge Engine (ingest_hourly.py, save_partitioned_parquet)

The raw partition store maps a key (year, ticker) — the S3 object
raw/year/ticker_metrics.parquet — to the rows of that partition, or none
when the object is absent.  download_from_s3 turns an absent object into
an empty frame, so reading uses an empty row list as the base. -/

def Store := Nat × String → Option (List RawRow)

def EStore := Nat × String → Option (List EnrichedRow)

/-- Years touched by the fetched frame:
df.select(pl.col(date).dt.year()).unique(). -/
def yearsOf (df : List RawRow) : List Nat :=
  (df.map (fun r => r.date.year)).dedup

/-- Subset of the fetched frame for one (year, ticker) key:
df.filter(date.dt.year == year and ticker == ticker). -/
def subsetDf (df : List RawRow) (y : Nat) (t : String) : List RawRow :=
  df.filter (fun r => r.date.year == y && r.ticker == t)

/-- Existing partition content, with a missing object read as empty. -/
def existingOf (store : Store) (k : Nat × String) : List RawRow :=
  (store k).getD []

/-- One run of save_partitioned_parquet on the fetched frame df.  An empty
frame returns without writing.  Otherwise every key in
years(df) x tickers is read, merged as
concat(existing, subset).unique(subset=[date, ticker]) — an admissible
dedup, since unique keeps an arbitrary row of each colliding group — and
written back; every other key keeps its previous content. -/
def MergeRun (store : Store) (df : List RawRow) (tickers : List String)
    (store2 : Store) : Prop :=
  match df with
  | [] => store2 = store
  | _ :: _ =>
    ∃ choice : Nat × String → List RawRow,
      (∀ y ∈ yearsOf df, ∀ t ∈ tickers,
        DedupBy kDT (existingOf store (y, t) ++ subsetDf df y t)
          (choice (y, t))) ∧
      (∀ k, store2 k =
        if k.1 ∈ yearsOf df ∧ k.2 ∈ tickers then some (choice k) else store k)

/-- The store produced by a merge run whose per-key content is given by an
explicit choice function. -/
def mergeRunWith (store : Store) (df : List RawRow) (tickers : List String)
    (choice : Nat × String → List RawRow) : Store :=
  match df with
  | [] => store
  | _ :: _ =>
    fun k =>
      if k.1 ∈ yearsOf df ∧ k.2 ∈ tickers then some (choice k) else store k

theorem mergeRunWith_spec (store : Store) (df : List RawRow)
    (tickers : List String) (choice : Nat × String → List RawRow)
    (hc : ∀ y ∈ yearsOf df, ∀ t ∈ tickers,
      DedupBy kDT (existingOf store (y, t) ++ subsetDf df y t)
        (choice (y, t))) :
    MergeRun store df tickers (mergeRunWith store df tickers choice) := by
  cases df with
  | nil => rfl
  | cons r rs => exact ⟨choice, hc, fun k => rfl⟩

/-- The deterministic keep-first instance of a merge run. -/
def mergeRunFirst (store : Store) (df : List RawRow)
    (tickers : List String) : Store :=
  mergeRunWith store df tickers
    (fun k => dedupKeepFirst kDT (existingOf store k ++ subsetDf df k.1 k.2))

theorem mergeRunFirst_spec (store : Store) (df : List RawRow)
    (tickers : List String) :
    MergeRun store df tickers (mergeRunFirst store df tickers) :=
  mergeRunWith_spec store df tickers _
    (fun _ _ _ _ => dedupKeepFirst_spec kDT _)

theorem mem_subsetDf {df : List RawRow} {y : Nat} {t : String} {r : RawRow} :
    r ∈ subsetDf df y t ↔ r ∈ df ∧ r.date.year = y ∧ r.ticker = t := by
  simp [subsetDf, List.mem_filter, and_assoc]

theorem mem_yearsOf {df : List RawRow} {y : Nat} :
    y ∈ yearsOf df ↔ ∃ r ∈ df, r.date.year = y := by
  simp [yearsOf, List.mem_dedup, List.mem_map]

/-! ### Metrics Transformer (transform.py, compute_metrics)

compute_metrics sorts by [ticker, date], adds
daily_return = 100 * close.pct_change() over ticker and
rolling_vol_30d = daily_return.rolling_std(window_size=30, min_samples=1)
over ticker.  pct_change is null at the first element of a group and
cur/prev - 1 elsewhere, with IEEE results when prev = 0.  rolling_std
returns null when the trailing window holds fewer than min_samples
non-null values, and otherwise the sample standard deviation (ddof 1) of
the non-null values in the window (NaN for a single sample). -/

/-- Lexicographic order on char lists (by code point), the string order
used for the ticker sort key. -/
def charsLt : List Char → List Char → Bool
  | [], [] => false
  | [], _ :: _ => true
  | _ :: _, [] => false
  | a :: as, b :: bs =>
    if a.val < b.val then true
    else if b.val < a.val then false
    else charsLt as bs

theorem charsLt_self : ∀ l : List Char, charsLt l l = false := by
  intro l
  induction l with
  | nil => rfl
  | cons a as ih =>
    simp [charsLt, ih]

def tickerLtB (a b : String) : Bool := charsLt a.data b.data

def rowLe (a b : RawRow) : Prop :=
  tickerLtB a.ticker b.ticker = true ∨
    (a.ticker = b.ticker ∧ (dateLt a.date b.date ∨ a.date = b.date))

instance (a b : RawRow) : Decidable (rowLe a b) :=
  inferInstanceAs (Decidable (tickerLtB a.ticker b.ticker = true ∨
    (a.ticker = b.ticker ∧ (dateLt a.date b.date ∨ a.date = b.date))))

/-- Stable insertion used to model the [ticker, date] sort. -/
def insertRow (x : RawRow) : List RawRow → List RawRow
  | [] => [x]
  | y :: ys => if rowLe y x then y :: insertRow x ys else x :: y :: ys

def sortRows : List RawRow → List RawRow
  | [] => []
  | x :: xs => insertRow x (sortRows xs)

/-- Value of 100 * pct_change at a non-initial position, in float64
semantics: finite when the previous close is nonzero, otherwise the IEEE
result of dividing by zero. -/
def pctVal (prev cur : ℚ) : FVal :=
  if prev = 0 then
    (if 0 < cur then FVal.pinf else if cur < 0 then FVal.ninf else FVal.nan)
  else FVal.fin (100 * (cur / prev - 1))

def returnsGo (prev : ℚ) : List ℚ → List (Option FVal)
  | [] => []
  | c :: cs => some (pctVal prev c) :: returnsGo c cs

/-- The daily_return column of one ticker group, in date order: null
first, then 100 * pct_change. -/
def returnsOfCloses : List ℚ → List (Option FVal)
  | [] => []
  | c :: cs => none :: returnsGo c cs

/-- Trailing window of width w ending at index i (inclusive). -/
def windowAt (w : Nat) (xs : List (Option FVal)) (i : Nat) :
    List (Option FVal) :=
  (xs.take (i + 1)).drop (i + 1 - w)

/-- Sample variance (ddof 1) of a list of float values: NaN when any
value is non-finite or when there are fewer than two samples, matching
float64 evaluation of sum((x - mean)^2) / (n - 1). -/
def sampleVarF (xs : List FVal) : FVal :=
  let qs := xs.filterMap (fun x => match x with | FVal.fin q => some q | _ => none)
  if qs.length = xs.length then
    if xs.length ≤ 1 then FVal.nan
    else
      let n : ℚ := xs.length
      let mean := qs.sum / n
      FVal.fin ((qs.map (fun q => (q - mean) ^ 2)).sum / (n - 1))
  else FVal.nan

/-- Float square root on the model values; sqrtv keeps the exact radicand
of a finite nonnegative argument. -/
def fvSqrt : FVal → FVal
  | FVal.fin q => if q < 0 then FVal.nan else FVal.sqrtv q
  | FVal.pinf => FVal.pinf
  | FVal.ninf => FVal.nan
  | FVal.nan => FVal.nan
  | FVal.sqrtv q => FVal.sqrtv q

/-- rolling_std over one group: at each index, null unless the trailing
window has at least minS non-null values, else the sample standard
deviation of those values. -/
def rollingStdList (w minS : Nat) (xs : List (Option FVal)) :
    List (Option FVal) :=
  (List.range xs.length).map (fun i =>
    let valid := (windowAt w xs i).filterMap id
    if valid.length < minS then none else some (fvSqrt (sampleVarF valid)))

/-- ROLLING_WINDOW from config.py. -/
def rollingWindow : Nat := 30

/-- Positional alignment of the raw rows with the two computed columns,
as with_columns aligns series of equal length. -/
def zipEnrich : List RawRow → List (Option FVal) → List (Option FVal) →
    List EnrichedRow
  | r :: rs, d :: ds, v :: vs => ⟨r, d, v⟩ :: zipEnrich rs ds vs
  | _, _, _ => []

def enrichGroup (rows : List RawRow) : List EnrichedRow :=
  let rets := returnsOfCloses (rows.map (fun r => r.close))
  zipEnrich rows rets (rollingStdList rollingWindow 1 rets)

/-- Distinct tickers of the sorted frame, giving the per-ticker groups of
the over(ticker) window functions. -/
def tickersInOrder (rows : List RawRow) : List String :=
  (rows.map (fun r => r.ticker)).dedup

def compute_metrics (rows : List RawRow) : List EnrichedRow :=
  match rows with
  | [] => []
  | _ :: _ =>
    let s := sortRows rows
    (tickersInOrder s).flatMap
      (fun t => enrichGroup (s.filter (fun r => r.ticker == t)))

/-! ### Data Quality Gate (transform.py, data_quality_checks)

The gate inspects the frame schema (column names and dtypes) and the null
counts of the ticker and date columns, so frames are modelled with their
schema explicit: a list of named, typed columns of cells.  The source
returns a plain bool and reports each violation through logging.error;
the violation list below models those log calls, and the bool result is
its first component. -/

inductive DType where
  | dtDatetime
  | dtFloat64
  | dtInt64
  | dtUtf8
deriving DecidableEq, Repr

inductive Cell where
  | cnull
  | cdate (d : Date)
  | cts (n : Nat)
  | cfloat (v : FVal)
  | cint (n : Int)
  | cstr (s : String)
deriving DecidableEq, Repr

structure Col where
  name : String
  dtype : DType
  cells : List Cell
deriving DecidableEq, Repr

structure Frame where
  cols : List Col
deriving DecidableEq, Repr

inductive Violation where
  | missingCols (names : List String)
  | typeMismatch (name : String)
  | nullsIn (name : String)
deriving DecidableEq, Repr

def colNames (f : Frame) : List String := f.cols.map (fun c => c.name)

def lookupCol (f : Frame) (n : String) : Option Col :=
  f.cols.find? (fun c => c.name == n)

/-- expected_schema of data_quality_checks, in its Python dict order. -/
def expectedSchema : List (String × DType) :=
  [("date", DType.dtDatetime), ("close", DType.dtFloat64),
   ("high", DType.dtFloat64), ("low", DType.dtFloat64),
   ("open", DType.dtFloat64), ("volume", DType.dtInt64),
   ("ticker", DType.dtUtf8), ("ingest_ts", DType.dtDatetime),
   ("daily_return", DType.dtFloat64), ("rolling_vol_30d", DType.dtFloat64)]

/-- First column of the expected schema that is present but whose dtype
differs from the expectation (the type loop returns at its first
failure). -/
def firstTypeMismatch (f : Frame) : List (String × DType) → Option String
  | [] => none
  | (n, ty) :: rest =>
    match lookupCol f n with
    | none => firstTypeMismatch f rest
    | some c => if c.dtype == ty then firstTypeMismatch f rest else some n

def nullCountIn (f : Frame) (n : String) : Nat :=
  match lookupCol f n with
  | none => 0
  | some c => c.cells.countP (fun x => x == Cell.cnull)

/-- First critical column (ticker then date) containing a null. -/
def firstNullViolation (f : Frame) : List String → Option String
  | [] => none
  | n :: rest =>
    if 0 < nullCountIn f n then some n else firstNullViolation f rest

/-- data_quality_checks with its logged violations made explicit.  Each
category short-circuits exactly as the source returns False early. -/
def dqcFull (f : Frame) : Bool × List Violation :=
  let missing := (expectedSchema.map (fun p => p.1)).filter
    (fun n => !(n ∈ colNames f))
  match missing with
  | _ :: _ => (false, [Violation.missingCols missing])
  | [] =>
    match firstTypeMismatch f expectedSchema with
    | some n => (false, [Violation.typeMismatch n])
    | none =>
      match firstNullViolation f ["ticker", "date"] with
      | some n => (false, [Violation.nullsIn n])
      | none => (true, [])

/-- The bool actually returned by data_quality_checks. -/
def data_quality_checks (f : Frame) : Bool := (dqcFull f).1

def optCell : Option FVal → Cell
  | none => Cell.cnull
  | some v => Cell.cfloat v

/-- The frame (schema plus cells) of a list of enriched rows, as written
by compute_metrics: all expected columns present with their declared
dtypes. -/
def toFrame (rows : List EnrichedRow) : Frame :=
  ⟨[⟨"date", DType.dtDatetime, rows.map (fun e => Cell.cdate e.raw.date)⟩,
    ⟨"close", DType.dtFloat64, rows.map (fun e => Cell.cfloat (FVal.fin e.raw.close))⟩,
    ⟨"high", DType.dtFloat64, rows.map (fun e => Cell.cfloat (FVal.fin e.raw.high))⟩,
    ⟨"low", DType.dtFloat64, rows.map (fun e => Cell.cfloat (FVal.fin e.raw.low))⟩,
    ⟨"open", DType.dtFloat64, rows.map (fun e => Cell.cfloat (FVal.fin e.raw.opn))⟩,
    ⟨"volume", DType.dtInt64, rows.map (fun e => Cell.cint e.raw.volume)⟩,
    ⟨"ticker", DType.dtUtf8, rows.map (fun e => Cell.cstr e.raw.ticker)⟩,
    ⟨"ingest_ts", DType.dtDatetime, rows.map (fun e => Cell.cts e.raw.ingestTs)⟩,
    ⟨"daily_return", DType.dtFloat64, rows.map (fun e => optCell e.daily_return)⟩,
    ⟨"rolling_vol_30d", DType.dtFloat64, rows.map (fun e => optCell e.rolling_vol_30d)⟩]⟩

/-- Lines 132-136 of transform.py applied to an enriched frame: publish
it only when the gate passes. -/
def publishStep (f : Frame) : Option Frame :=
  if data_quality_checks f then some f else none

/-- process_ticker for one (year, ticker) key: what (if anything) is
written to the enriched store for that key.  A missing or empty raw
partition writes nothing; otherwise the computed partition is written
exactly when the gate passes. -/
def processKey (part : Option (List RawRow)) : Option (List EnrichedRow) :=
  match part with
  | none => none
  | some [] => none
  | some rows =>
    let e := compute_metrics rows
    if data_quality_checks (toFrame e) then some e else none

/-- The transform stage over the whole raw store: each key is processed
from its own raw partition alone (transform.py main submits process_ticker
per year and ticker). -/
def transformRun (raw : Store) : EStore :=
  fun k => processKey (raw k)

/-! ### Incremental Loader (load_stock_metrics.py)

The relational table is a list of enriched rows.  main computes the
per-ticker high-water marks (get_latest_dates) BEFORE calling
load_to_stock_metrics, which first deletes every stored row dated the
current run date (in its own transaction), then collects from each
enriched partition the rows strictly beyond the pre-delete high-water
mark, deduplicates the concatenation by (ticker, date) and appends it.
The start year of the scanned range comes from a helper
(get_latest_ingest_year) that load_stock_metrics.py imports but that the
repository does not define; the scanned years are therefore kept as an
explicit parameter. -/

abbrev Table := List EnrichedRow

/-- DELETE FROM stock_metrics WHERE date = today. -/
def delToday (table : Table) (today : Date) : Table :=
  table.filter (fun e => !(e.raw.date == today))

/-- SELECT ticker, MAX(date) ... GROUP BY ticker. -/
def tickersOfTable (table : Table) : List String :=
  (table.map (fun e => e.raw.ticker)).dedup

def latestFor (table : Table) (t : String) : Option Date :=
  match (table.filter (fun e => e.raw.ticker == t)).map
      (fun e => e.raw.date) with
  | [] => none
  | d :: ds => some (ds.foldl (fun a b => if dateLt a b then b else a) d)

def get_latest_dates (table : Table) : List (String × Date) :=
  (tickersOfTable table).filterMap
    (fun t => (latestFor table t).map (fun d => (t, d)))

def lookupLatest (lat : List (String × Date)) (t : String) : Option Date :=
  (lat.find? (fun p => p.1 == t)).map (fun p => p.2)

/-- The high-water-mark filter of lines 76-80: applied only when the
latest_dates frame is nonempty; a row survives when its ticker has no
stored date (left-join null) or its date is strictly later. -/
def filterNew (lat : List (String × Date)) (rows : List EnrichedRow) :
    List EnrichedRow :=
  match lat with
  | [] => rows
  | _ :: _ =>
    rows.filter (fun e =>
      match lookupLatest lat e.raw.ticker with
      | none => true
      | some d => decide (dateLt d e.raw.date))

/-- The dataframes list built by the year x ticker loop: missing objects
and frames left empty (before or after the filter) are skipped.  Dropping
the join column latest_date is implicit in the row model. -/
def collectFrames (store : EStore) (years : List Nat) (tickers : List String)
    (lat : List (String × Date)) : List (List EnrichedRow) :=
  years.flatMap (fun y => tickers.filterMap (fun t =>
    match store (y, t) with
    | none => none
    | some rows =>
      if rows.isEmpty then none
      else
        let kept := filterNew lat rows
        if kept.isEmpty then none else some kept))

/-- One run of load_to_stock_metrics given the pre-computed high-water
marks: the result table after the delete and the (optional) deduplicated
bulk append.  The final unique(subset=[ticker, date]) keeps an arbitrary
row of each colliding group, hence the admissible-dedup relation. -/
def LoadRun (table : Table) (store : EStore) (years : List Nat)
    (tickers : List String) (today : Date) (lat : List (String × Date))
    (result : Table) : Prop :=
  match collectFrames store years tickers lat with
  | [] => result = delToday table today
  | d :: ds =>
    ∃ u, DedupBy kTD ((d :: ds).flatten) u ∧
      result = delToday table today ++ u

/-- The deterministic keep-first instance of a load run. -/
def loadRunFirst (table : Table) (store : EStore) (years : List Nat)
    (tickers : List String) (today : Date) (lat : List (String × Date)) :
    Table :=
  match collectFrames store years tickers lat with
  | [] => delToday table today
  | d :: ds => delToday table today ++ dedupKeepFirst kTD ((d :: ds).flatten)

theorem loadRunFirst_spec (table : Table) (store : EStore) (years : List Nat)
    (tickers : List String) (today : Date) (lat : List (String × Date)) :
    LoadRun table store years tickers today lat
      (loadRunFirst table store years tickers today lat) := by
  unfold LoadRun loadRunFirst
  cases collectFrames store years tickers lat with
  | nil => rfl
  | cons d ds => exact ⟨_, dedupKeepFirst_spec kTD _, rfl⟩

/-- One run of load_stock_metrics.main: the high-water marks are read
from the table before the run (lines 100-112), so the delete of the
current date is not reflected in them. -/
def mainLoadRun (table : Table) (store : EStore) (years : List Nat)
    (tickers : List String) (today : Date) (result : Table) : Prop :=
  LoadRun table store years tickers today (get_latest_dates table) result

/-- The table states at the transaction boundaries of one run: the
initial table, the state once the standalone delete transaction of lines
57-61 has committed, and the state after the bulk append of line 89
(taken with the keep-first dedup choice).  A process failure between the
two commits leaves the middle state. -/
def loadCommitStates (table : Table) (store : EStore) (years : List Nat)
    (tickers : List String) (today : Date) (lat : List (String × Date)) :
    List Table :=
  [table, delToday table today,
   loadRunFirst table store years tickers today lat]

/-! ### Helper lemmas about the transformer -/

theorem sortRows_eq_self (t : String) :
    ∀ rows : List RawRow, (∀ r ∈ rows, r.ticker = t) →
      List.Chain' dateLt (rows.map (fun r => r.date)) →
      sortRows rows = rows := by
  intro rows
  induction rows with
  | nil => intro _ _; rfl
  | cons x xs ih =>
    intro ht hch
    have hxs : sortRows xs = xs := by
      refine ih (fun r hr => ht r (List.mem_cons_of_mem _ hr)) ?_
      simpa using hch.tail
    show insertRow x (sortRows xs) = x :: xs
    rw [hxs]
    cases xs with
    | nil => rfl
    | cons y ys =>
      have hxy : dateLt x.date y.date := by
        simp only [List.map_cons, List.chain'_cons] at hch
        exact hch.1
      have hyx : ¬ rowLe y x := by
        rintro (h | ⟨h1, h2 | h2⟩)
        · rw [ht y (by simp), ht x (by simp)] at h
          rw [tickerLtB, charsLt_self] at h
          exact Bool.false_ne_true h
        · exact dateLt_asymm hxy h2
        · exact dateLt_ne hxy h2.symm
      simp [insertRow, hyx]

theorem dedup_all_eq (t : String) :
    ∀ l : List String, l ≠ [] → (∀ x ∈ l, x = t) → l.dedup = [t] := by
  intro l
  induction l with
  | nil => intro h _; exact absurd rfl h
  | cons x xs ih =>
    intro _ hall
    have hx : x = t := hall x (by simp)
    cases xs with
    | nil => simp [hx]
    | cons y ys =>
      have hxs : (y :: ys).dedup = [t] :=
        ih (by simp) (fun z hz => hall z (List.mem_cons_of_mem _ hz))
      have hy : y = t := hall y (by simp)
      have hmem : x ∈ y :: ys := by
        rw [hx, ← hy]; exact List.mem_cons_self _ _
      rw [List.dedup_cons_of_mem hmem, hxs]

theorem filter_ticker_eq_self (t : String) (rows : List RawRow)
    (ht : ∀ r ∈ rows, r.ticker = t) :
    rows.filter (fun r => r.ticker == t) = rows := by
  refine List.filter_eq_self.mpr (fun r hr => ?_)
  simp [ht r hr]

/-- On a nonempty single-instrument partition already in date order,
compute_metrics is exactly the per-group enrichment. -/
theorem compute_metrics_single (t : String) (rows : List RawRow)
    (hne : rows ≠ []) (ht : ∀ r ∈ rows, r.ticker = t)
    (hch : List.Chain' dateLt (rows.map (fun r => r.date))) :
    compute_metrics rows = enrichGroup rows := by
  match rows, hne with
  | r :: rs, _ =>
    show (tickersInOrder (sortRows (r :: rs))).flatMap
        (fun t2 => enrichGroup ((sortRows (r :: rs)).filter
          (fun q => q.ticker == t2))) = enrichGroup (r :: rs)
    rw [sortRows_eq_self t _ ht hch]
    have htick : tickersInOrder (r :: rs) = [t] := by
      unfold tickersInOrder
      refine dedup_all_eq t _ (by simp) ?_
      intro x hx
      obtain ⟨q, hq, rfl⟩ := List.mem_map.mp hx
      exact ht q hq
    rw [htick]
    simp [filter_ticker_eq_self t _ ht]

theorem zipEnrich_map_dr :
    ∀ (rs : List RawRow) (ds vs : List (Option FVal)),
      rs.length = ds.length → ds.length = vs.length →
      (zipEnrich rs ds vs).map (fun e => e.daily_return) = ds := by
  intro rs
  induction rs with
  | nil =>
    intro ds vs h1 _
    cases ds with
    | nil => rfl
    | cons d ds => simp at h1
  | cons r rs ih =>
    intro ds vs h1 h2
    cases ds with
    | nil => simp at h1
    | cons d ds =>
      cases vs with
      | nil => simp at h2
      | cons v vs =>
        simp only [zipEnrich, List.map_cons, List.cons.injEq, true_and]
        exact ih ds vs (by simpa using h1) (by simpa using h2)

theorem zipEnrich_map_rv :
    ∀ (rs : List RawRow) (ds vs : List (Option FVal)),
      rs.length = ds.length → ds.length = vs.length →
      (zipEnrich rs ds vs).map (fun e => e.rolling_vol_30d) = vs := by
  intro rs
  induction rs with
  | nil =>
    intro ds vs h1 h2
    cases ds with
    | nil => cases vs with
      | nil => rfl
      | cons v vs => simp at h2
    | cons d ds => simp at h1
  | cons r rs ih =>
    intro ds vs h1 h2
    cases ds with
    | nil => simp at h1
    | cons d ds =>
      cases vs with
      | nil => simp at h2
      | cons v vs =>
        simp only [zipEnrich, List.map_cons, List.cons.injEq, true_and]
        exact ih ds vs (by simpa using h1) (by simpa using h2)

theorem returnsGo_length (cs : List ℚ) :
    ∀ prev, (returnsGo prev cs).length = cs.length := by
  induction cs with
  | nil => intro prev; rfl
  | cons c cs ih => intro prev; simp [returnsGo, ih]

theorem returnsOfCloses_length (cs : List ℚ) :
    (returnsOfCloses cs).length = cs.length := by
  cases cs with
  | nil => rfl
  | cons c cs => simp [returnsOfCloses, returnsGo_length]

theorem rollingStdList_length (w m : Nat) (xs : List (Option FVal)) :
    (rollingStdList w m xs).length = xs.length := by
  simp [rollingStdList]

theorem returnsGo_get?_isSome (cs : List ℚ) :
    ∀ prev i, i < cs.length → ∃ w, (returnsGo prev cs).get? i = some (some w) := by
  induction cs with
  | nil => intro prev i h; simp at h
  | cons c cs ih =>
    intro prev i h
    cases i with
    | zero => exact ⟨pctVal prev c, rfl⟩
    | succ j => exact ih c j (by simpa using h)

theorem rollingStdList_get? (w m : Nat) (xs : List (Option FVal)) (i : Nat)
    (h : i < xs.length) :
    (rollingStdList w m xs).get? i =
      some (if ((windowAt w xs i).filterMap id).length < m then none
        else some (fvSqrt (sampleVarF ((windowAt w xs i).filterMap id)))) := by
  unfold rollingStdList
  rw [List.get?_map, List.get?_range h]
  rfl

/-- The element at index i belongs to the trailing window ending at i. -/
theorem mem_windowAt {w : Nat} (hw : 0 < w) {xs : List (Option FVal)}
    {i : Nat} {a : Option FVal} (h : xs.get? i = some a) :
    a ∈ windowAt w xs i := by
  have hi : i < xs.length := by
    by_contra hcon
    rw [List.get?_eq_none.mpr (Nat.le_of_not_lt hcon)] at h
    exact Option.noConfusion h
  have hk : i + 1 - w ≤ i := by omega
  have hwin : (windowAt w xs i).get? (i - (i + 1 - w)) = some a := by
    unfold windowAt
    rw [List.get?_drop]
    have : i + 1 - w + (i - (i + 1 - w)) = i := by omega
    rw [this, List.get?_take (by omega)]
    exact h
  exact List.get?_mem hwin

/-- Where a window holds at least one non-null value, rolling_std with
min_samples 1 is non-null. -/
theorem rollingStdList_isSome {xs : List (Option FVal)} {i : Nat} {v : FVal}
    (h : xs.get? i = some (some v)) :
    ∃ u, (rollingStdList rollingWindow 1 xs).get? i = some (some u) := by
  have hi : i < xs.length := by
    by_contra hcon
    rw [List.get?_eq_none.mpr (Nat.le_of_not_lt hcon)] at h
    exact Option.noConfusion h
  rw [rollingStdList_get? rollingWindow 1 xs i hi]
  have hmem : some v ∈ windowAt rollingWindow xs i :=
    mem_windowAt (by norm_num [rollingWindow]) h
  have hv : v ∈ (windowAt rollingWindow xs i).filterMap id :=
    List.mem_filterMap.mpr ⟨some v, hmem, rfl⟩
  have hlen : ¬ ((windowAt rollingWindow xs i).filterMap id).length < 1 := by
    have := List.length_pos.mpr (List.ne_nil_of_mem hv)
    omega
  rw [if_neg hlen]
  exact ⟨_, rfl⟩

/-- The first entry of rolling_std over a group (window [null]) is null:
it has no non-null sample, below the min_samples floor of 1. -/
theorem rollingStdList_head (rest : List (Option FVal)) :
    (rollingStdList rollingWindow 1 (none :: rest)).get? 0 = some none := by
  rw [rollingStdList_get? rollingWindow 1 _ 0 (by simp)]
  rfl

/-- compute_metrics output always passes data_quality_checks: the written
schema matches the expected one exactly and ticker and date cells are
never null.  In particular the gate cannot flag non-finite metric values. -/
theorem dqcFull_toFrame (rows : List EnrichedRow) :
    dqcFull (toFrame rows) = (true, []) := by
  have htick : lookupCol (toFrame rows) "ticker" =
      some ⟨"ticker", DType.dtUtf8,
        rows.map (fun e => Cell.cstr e.raw.ticker)⟩ := rfl
  have hdate : lookupCol (toFrame rows) "date" =
      some ⟨"date", DType.dtDatetime,
        rows.map (fun e => Cell.cdate e.raw.date)⟩ := rfl
  have hnt : nullCountIn (toFrame rows) "ticker" = 0 := by
    unfold nullCountIn
    rw [htick]
    simp only [List.countP_eq_zero, List.mem_map]
    rintro c ⟨e, _, rfl⟩
    simp
  have hnd : nullCountIn (toFrame rows) "date" = 0 := by
    unfold nullCountIn
    rw [hdate]
    simp only [List.countP_eq_zero, List.mem_map]
    rintro c ⟨e, _, rfl⟩
    simp
  have hmiss : (expectedSchema.map (fun p => p.1)).filter
      (fun n => !(n ∈ colNames (toFrame rows))) = [] := rfl
  have hty : firstTypeMismatch (toFrame rows) expectedSchema = none := rfl
  have hnv : firstNullViolation (toFrame rows) ["ticker", "date"] = none := by
    simp only [firstNullViolation, hnt, hnd]
    norm_num
  unfold dqcFull
  rw [hmiss, hty, hnv]

theorem data_quality_checks_toFrame (rows : List EnrichedRow) :
    data_quality_checks (toFrame rows) = true := by
  unfold data_quality_checks
  rw [dqcFull_toFrame]

/-- Modelled from the spec formula for daily_return (section 4.2): null
at the first index, 100 * (close i - close (i-1)) / close (i-1) at every
later index, written as a recursion over the close column.  This is the
comparison definition for the refinement claim about compute_metrics. -/
def specGo (prev : ℚ) : List ℚ → List (Option FVal)
  | [] => []
  | c :: cs => some (FVal.fin (100 * ((c - prev) / prev))) :: specGo c cs

def specDailyReturns : List ℚ → List (Option FVal)
  | [] => []
  | c :: cs => none :: specGo c cs

theorem returnsGo_eq_specGo :
    ∀ (cs : List ℚ) (prev : ℚ), prev ≠ 0 → (∀ c ∈ cs, c ≠ 0) →
      returnsGo prev cs = specGo prev cs := by
  intro cs
  induction cs with
  | nil => intro prev _ _; rfl
  | cons c cs ih =>
    intro prev hp hall
    have hvc : pctVal prev c = FVal.fin (100 * ((c - prev) / prev)) := by
      unfold pctVal
      rw [if_neg hp]
      congr 1
      field_simp
    simp only [returnsGo, specGo, hvc]
    rw [ih c (hall c (by simp)) (fun x hx => hall x (by simp [hx]))]

theorem returnsOfCloses_eq_spec (cs : List ℚ) (hall : ∀ c ∈ cs, c ≠ 0) :
    returnsOfCloses cs = specDailyReturns cs := by
  cases cs with
  | nil => rfl
  | cons c cs =>
    simp only [returnsOfCloses, specDailyReturns]
    rw [returnsGo_eq_specGo cs c (hall c (by simp))
      (fun x hx => hall x (by simp [hx]))]

/-! ### Concrete instances used by counterexamples and witnesses -/

def dJan : Date := ⟨2024, 10⟩
def dFeb : Date := ⟨2024, 11⟩
def dMar : Date := ⟨2024, 12⟩

/-- A stored row and a re-fetched row for the same (instrument, date) key
with a different close. -/
def rOld : RawRow := ⟨"A", dJan, 1, 1, 1, 1, 100, 0⟩

def rNew : RawRow := ⟨"A", dJan, 1, 1, 1, 2, 100, 1⟩

def store0 : Store := fun k => if k = (2024, "A") then some [rOld] else none

def storeEmpty : Store := fun _ => none

def dfNew : List RawRow := [rNew]

/-- A first merge run that keeps the pre-existing row of the colliding
key (admissible for unique with keep=any). -/
def storeKeptOld : Store := mergeRunWith store0 dfNew ["A"] (fun _ => [rOld])

/-- A second merge run over the same batch that keeps the fetched row. -/
def storeKeptNew : Store := mergeRunWith storeKeptOld dfNew ["A"] (fun _ => [rNew])

/-! ### C1 -/

/-- C1, counterexample: a merge run of a batch holding rNew against a
partition holding rOld (same (instrument, date) key) may leave the
partition holding rOld only — polars unique(keep=any) does not prefer the
fetched row — so the claim that the merged partition always contains the
fetched row's values on a key collision is false. -/
theorem merge_keeps_old_row_counterexample :
    MergeRun store0 dfNew ["A"] storeKeptOld ∧
    storeKeptOld (2024, "A") = some [rOld] ∧
    rNew ∈ dfNew ∧ kDT rNew = kDT rOld ∧ rNew ∉ [rOld] := by
  refine ⟨mergeRunWith_spec store0 dfNew ["A"] _ (by decide), ?_, ?_, ?_, ?_⟩
  · decide
  · decide
  · decide
  · decide

/-- C1 (amended): for every key touched by the fetched batch, the merge
writes a partition whose rows are drawn from the union of the prior
partition (empty when absent) and the fetched rows for that key, with
exactly one row per (instrument, date) key and every such key of the
union represented; which row of a colliding group survives is not
specified (polars unique defaults to keep=any). -/
theorem merge_union_dedup_no_preference (store : Store) (df : List RawRow)
    (tickers : List String) (store2 : Store)
    (hrun : MergeRun store df tickers store2) (y : Nat) (t : String)
    (htouch : ∃ r ∈ df, r.date.year = y ∧ r.ticker = t)
    (ht : t ∈ tickers) :
    ∃ rows, store2 (y, t) = some rows ∧
      (rows.map kDT).Nodup ∧
      (∀ r ∈ rows,
        r ∈ existingOf store (y, t) ∨ (r ∈ df ∧ r.date.year = y ∧ r.ticker = t)) ∧
      (∀ r, (r ∈ existingOf store (y, t) ∨
          (r ∈ df ∧ r.date.year = y ∧ r.ticker = t)) →
        ∃ r2 ∈ rows, kDT r2 = kDT r) := by
  obtain ⟨r0, hr0, hy0, ht0⟩ := htouch
  have hy : y ∈ yearsOf df := mem_yearsOf.mpr ⟨r0, hr0, hy0⟩
  match df, hr0 with
  | _ :: _, _ =>
    obtain ⟨choice, hch, hst⟩ := hrun
    have hded := hch y hy t ht
    refine ⟨choice (y, t), ?_, hded.1, ?_, ?_⟩
    · rw [hst (y, t)]
      exact if_pos ⟨hy, ht⟩
    · intro r hr
      rcases List.mem_append.mp (hded.2.1 r hr) with h | h
      · exact Or.inl h
      · exact Or.inr (mem_subsetDf.mp h)
    · intro r hr
      refine hded.2.2 r (List.mem_append.mpr ?_)
      rcases hr with h | h
      · exact Or.inl h
      · exact Or.inr (mem_subsetDf.mpr h)

/-- C1, witness for the amended theorem at the concrete run that keeps
the old row. -/
theorem merge_union_dedup_no_preference_witness :
    ∃ rows, storeKeptOld (2024, "A") = some rows ∧
      (rows.map kDT).Nodup ∧
      (∀ r ∈ rows,
        r ∈ existingOf store0 (2024, "A") ∨
          (r ∈ dfNew ∧ r.date.year = 2024 ∧ r.ticker = "A")) ∧
      (∀ r, (r ∈ existingOf store0 (2024, "A") ∨
          (r ∈ dfNew ∧ r.date.year = 2024 ∧ r.ticker = "A")) →
        ∃ r2 ∈ rows, kDT r2 = kDT r) :=
  merge_union_dedup_no_preference store0 dfNew ["A"] storeKeptOld
    (mergeRunWith_spec store0 dfNew ["A"] _ (by decide)) 2024 "A"
    ⟨rNew, by decide, by decide, by decide⟩ (by decide)

/-! ### C5 -/

/-- C5, counterexample: with the same batch and the same starting
partitions, one admissible run keeps the old row of the colliding key and
a second run over its output may keep the fetched row, so running the
merge twice can change the partition that a single run produced: the
claim of exact equality is false. -/
theorem merge_twice_differs_counterexample :
    MergeRun store0 dfNew ["A"] storeKeptOld ∧
    MergeRun storeKeptOld dfNew ["A"] storeKeptNew ∧
    storeKeptOld (2024, "A") ≠ storeKeptNew (2024, "A") := by
  refine ⟨mergeRunWith_spec store0 dfNew ["A"] _ (by decide),
    mergeRunWith_spec storeKeptOld dfNew ["A"] _ (by decide), ?_⟩
  decide

/-- C5 (amended): running the merge twice with the same batch yields a
store that is itself an admissible result of running the merge once
against the original partitions: the same keys are touched, each touched
partition again holds one row per key drawn from the same prior-union-
fetched candidates, and untouched keys keep their content.  Exact
equality of the two results is not guaranteed, since unique(keep=any)
may pick different rows of a colliding group in the two runs. -/
theorem merge_twice_admissible_once (store : Store) (df : List RawRow)
    (tickers : List String) (s1 s2 : Store)
    (h1 : MergeRun store df tickers s1) (h2 : MergeRun s1 df tickers s2) :
    MergeRun store df tickers s2 := by
  match df with
  | [] =>
    rw [show s1 = store from h1] at h2
    exact h2
  | a :: l =>
    obtain ⟨c1, hc1, hs1⟩ := h1
    obtain ⟨c2, hc2, hs2⟩ := h2
    refine ⟨c2, ?_, ?_⟩
    · intro y hy t ht
      have hd1 := hc1 y hy t ht
      have hd2 := hc2 y hy t ht
      have hex : existingOf s1 (y, t) = c1 (y, t) := by
        unfold existingOf
        rw [hs1 (y, t), if_pos ⟨hy, ht⟩]
        rfl
      rw [hex] at hd2
      refine ⟨hd2.1, ?_, ?_⟩
      · intro r hr
        rcases List.mem_append.mp (hd2.2.1 r hr) with h | h
        · exact hd1.2.1 r h
        · exact List.mem_append.mpr (Or.inr h)
      · intro r hr
        obtain ⟨r2, hr2, hk2⟩ := hd1.2.2 r hr
        obtain ⟨r3, hr3, hk3⟩ := hd2.2.2 r2 (List.mem_append.mpr (Or.inl hr2))
        exact ⟨r3, hr3, hk3.trans hk2⟩
    · intro k
      rw [hs2 k, hs1 k]
      by_cases hk : k.1 ∈ yearsOf (a :: l) ∧ k.2 ∈ tickers
      · rw [if_pos hk, if_pos hk]
      · rw [if_neg hk, if_neg hk, if_neg hk]

/-- C5, witness: the two concrete runs above compose into an admissible
single run. -/
theorem merge_twice_admissible_once_witness :
    MergeRun store0 dfNew ["A"] storeKeptNew :=
  merge_twice_admissible_once store0 dfNew ["A"] storeKeptOld storeKeptNew
    (mergeRunWith_spec store0 dfNew ["A"] _ (by decide))
    (mergeRunWith_spec storeKeptOld dfNew ["A"] _ (by decide))

/-! ### C6 -/

/-- The partition invariant: unique (instrument, date) keys, every row of
the stated instrument, every date within the stated year. -/
def PartOk (y : Nat) (t : String) (rows : List RawRow) : Prop :=
  (rows.map kDT).Nodup ∧ ∀ r ∈ rows, r.ticker = t ∧ r.date.year = y

def StoreOk (s : Store) : Prop :=
  ∀ y t rows, s (y, t) = some rows → PartOk y t rows

/-- C6: every partition a merge run writes has pairwise-distinct
(instrument, date) keys, unconditionally; and the run preserves the full
partition invariant: when every prior partition has unique keys, rows of
its stated instrument and dates within its stated year, so does every
partition after the run. -/
theorem merge_preserves_partition_invariant (store : Store)
    (df : List RawRow) (tickers : List String) (store2 : Store)
    (hrun : MergeRun store df tickers store2) :
    (∀ y ∈ yearsOf df, ∀ t ∈ tickers, ∀ rows, store2 (y, t) = some rows →
      (rows.map kDT).Nodup) ∧
    (StoreOk store → StoreOk store2) := by
  match df with
  | [] =>
    rw [show store2 = store from hrun]
    refine ⟨?_, fun hok => hok⟩
    intro y hy
    simp [yearsOf] at hy
  | a :: l =>
    obtain ⟨choice, hch, hst⟩ := hrun
    constructor
    · intro y hy t ht rows hrows
      rw [hst (y, t), if_pos ⟨hy, ht⟩] at hrows
      obtain rfl : choice (y, t) = rows := Option.some.inj hrows
      exact (hch y hy t ht).1
    · intro hok y t rows hrows
      rw [hst (y, t)] at hrows
      by_cases hk : y ∈ yearsOf (a :: l) ∧ t ∈ tickers
      · rw [if_pos hk] at hrows
        obtain rfl : choice (y, t) = rows := Option.some.inj hrows
        have hded := hch y hk.1 t hk.2
        refine ⟨hded.1, ?_⟩
        intro r hr
        rcases List.mem_append.mp (hded.2.1 r hr) with h | h
        · unfold existingOf at h
          cases hex : store (y, t) with
          | none => rw [hex] at h; cases h
          | some ex =>
            rw [hex] at h
            exact (hok y t ex hex).2 r h
        · obtain ⟨_, hy, ht⟩ := mem_subsetDf.mp h
          exact ⟨ht, hy⟩
      · rw [if_neg hk] at hrows
        exact hok y t rows hrows

/-- C6, witness: a merge of the batch dfNew into an empty store yields a
store satisfying the invariant. -/
theorem merge_preserves_partition_invariant_witness :
    StoreOk (mergeRunFirst storeEmpty dfNew ["A"]) :=
  (merge_preserves_partition_invariant storeEmpty dfNew ["A"] _
    (mergeRunFirst_spec storeEmpty dfNew ["A"])).2
    (fun _ _ _ h => Option.noConfusion h)

/-! ### C7 -/

/-- The three-row single-instrument partition with closes 100, 110, 99. -/
def rows100 : List RawRow :=
  [⟨"A", dJan, 100, 100, 100, 100, 10, 0⟩,
   ⟨"A", dFeb, 110, 110, 110, 110, 10, 0⟩,
   ⟨"A", dMar, 99, 99, 99, 99, 10, 0⟩]

/-- C7, counterexample: on the closes [100, 110, 99] the daily returns
are [null, 10, -10] as claimed, but rolling_vol at index 0 is null — its
trailing window holds only the null first return, below the min_samples
floor of 1 — contradicting the claim that rolling_vol is never null. -/
theorem rolling_vol_first_null_counterexample :
    (compute_metrics rows100).map (fun e => e.daily_return) =
      [none, some (FVal.fin 10), some (FVal.fin (-10))] ∧
    ((compute_metrics rows100).map (fun e => e.rolling_vol_30d)).get? 0 =
      some none := by
  have hcm : compute_metrics rows100 = enrichGroup rows100 := by
    refine compute_metrics_single "A" rows100 (by decide) (by decide) ?_
    simp only [rows100, List.map_cons, List.map_nil, List.chain'_cons,
      List.chain'_singleton, and_true]
    exact ⟨by decide, by decide⟩
  have hrets : returnsOfCloses (rows100.map (fun r => r.close)) =
      [none, some (pctVal 100 110), some (pctVal 110 99)] := rfl
  have hlen1 : rows100.length =
      (returnsOfCloses (rows100.map (fun r => r.close))).length := by
    rw [returnsOfCloses_length, List.length_map]
  have hlen2 : (returnsOfCloses (rows100.map (fun r => r.close))).length =
      (rollingStdList rollingWindow 1
        (returnsOfCloses (rows100.map (fun r => r.close)))).length := by
    rw [rollingStdList_length]
  constructor
  · rw [hcm]
    show (zipEnrich rows100 (returnsOfCloses (rows100.map (fun r => r.close)))
      (rollingStdList rollingWindow 1
        (returnsOfCloses (rows100.map (fun r => r.close))))).map
          (fun e => e.daily_return) = _
    rw [zipEnrich_map_dr _ _ _ hlen1 hlen2, hrets]
    have h10 : pctVal 100 110 = FVal.fin 10 := by
      unfold pctVal
      rw [if_neg (by norm_num : ¬ (100 : ℚ) = 0)]
      norm_num
    have hm10 : pctVal 110 99 = FVal.fin (-10) := by
      unfold pctVal
      rw [if_neg (by norm_num : ¬ (110 : ℚ) = 0)]
      norm_num
    rw [h10, hm10]
  · rw [hcm]
    show ((zipEnrich rows100 (returnsOfCloses (rows100.map (fun r => r.close)))
      (rollingStdList rollingWindow 1
        (returnsOfCloses (rows100.map (fun r => r.close))))).map
          (fun e => e.rolling_vol_30d)).get? 0 = some none
    rw [zipEnrich_map_rv _ _ _ hlen1 hlen2]
    exact rollingStdList_head _

/-- C7 (amended): on a nonempty single-instrument partition in date order
with positive closes, compute_metrics produces exactly the spec formula
for daily_return (null first, then 100 * (close i - close (i-1)) /
close (i-1)), and rolling_vol is null at index 0 (whose window holds no
non-null return) and non-null at every later index. -/
theorem metrics_returns_and_rolling_nulls (t : String) (rows : List RawRow)
    (hne : rows ≠ []) (ht : ∀ r ∈ rows, r.ticker = t)
    (hch : List.Chain' dateLt (rows.map (fun r => r.date)))
    (hpos : ∀ r ∈ rows, 0 < r.close) :
    (compute_metrics rows).map (fun e => e.daily_return) =
      specDailyReturns (rows.map (fun r => r.close)) ∧
    ((compute_metrics rows).map (fun e => e.rolling_vol_30d)).get? 0 =
      some none ∧
    (∀ i, 0 < i → i < rows.length →
      ∃ v, ((compute_metrics rows).map (fun e => e.rolling_vol_30d)).get? i =
        some (some v)) := by
  rw [compute_metrics_single t rows hne ht hch]
  match rows, hne with
  | r0 :: rs, _ =>
    have hts : ∀ r ∈ rs, r.ticker = t := fun r hr =>
      ht r (List.mem_cons_of_mem _ hr)
    set cs := (r0 :: rs).map (fun r => r.close) with hcs
    set rets := returnsOfCloses cs with hrets
    set vols := rollingStdList rollingWindow 1 rets with hvols
    have hlen1 : (r0 :: rs).length = rets.length := by
      rw [hrets, returnsOfCloses_length, hcs, List.length_map]
    have hlen2 : rets.length = vols.length := by
      rw [hvols, rollingStdList_length]
    have hshape : rets = none :: returnsGo r0.close (rs.map (fun r => r.close)) := by
      rw [hrets, hcs]
      rfl
    have hgr : enrichGroup (r0 :: rs) = zipEnrich (r0 :: rs) rets vols := rfl
    refine ⟨?_, ?_, ?_⟩
    · rw [hgr, zipEnrich_map_dr _ _ _ hlen1 hlen2]
      refine returnsOfCloses_eq_spec cs ?_
      intro c hc
      rw [hcs] at hc
      obtain ⟨r, hr, rfl⟩ := List.mem_map.mp hc
      exact ne_of_gt (hpos r hr)
    · rw [hgr, zipEnrich_map_rv _ _ _ hlen1 hlen2, hvols, hshape]
      exact rollingStdList_head _
    · intro i hi0 hilen
      rw [hgr, zipEnrich_map_rv _ _ _ hlen1 hlen2]
      match i, hi0 with
      | j + 1, _ =>
        have hj : j < (rs.map (fun r => r.close)).length := by
          rw [List.length_map]
          simpa using hilen
        obtain ⟨w, hw⟩ := returnsGo_get?_isSome (rs.map (fun r => r.close))
          r0.close j hj
        have hx : rets.get? (j + 1) = some (some w) := by
          rw [hshape]
          simpa using hw
        obtain ⟨u, hu⟩ := rollingStdList_isSome hx
        exact ⟨u, by rw [hvols]; exact hu⟩

/-- C7, witness for the amended theorem at the closes [100, 110, 99]. -/
theorem metrics_returns_and_rolling_nulls_witness :
    (compute_metrics rows100).map (fun e => e.daily_return) =
      specDailyReturns (rows100.map (fun r => r.close)) ∧
    ((compute_metrics rows100).map (fun e => e.rolling_vol_30d)).get? 0 =
      some none ∧
    (∀ i, 0 < i → i < rows100.length →
      ∃ v, ((compute_metrics rows100).map (fun e => e.rolling_vol_30d)).get? i =
        some (some v)) :=
  metrics_returns_and_rolling_nulls "A" rows100 (by decide) (by decide)
    (by
      simp only [rows100, List.map_cons, List.map_nil, List.chain'_cons,
        List.chain'_singleton, and_true]
      exact ⟨by decide, by decide⟩)
    (by decide)

/-! ### C8 -/

/-- A two-row partition whose first close is zero. -/
def rowsZero : List RawRow :=
  [⟨"Z", dJan, 0, 0, 0, 0, 1, 0⟩, ⟨"Z", dFeb, 5, 5, 5, 5, 1, 0⟩]

def storeZero : Store := fun k => if k = (2024, "Z") then some rowsZero else none

/-- C8, counterexample: on a partition whose first close is 0, the
transform computes an infinite daily_return for the next row, the data
quality checks pass, and the partition is published to the enriched
store — the pipeline does not treat the zero prior close as a
data-quality failure. -/
theorem zero_close_publishes_inf_counterexample :
    transformRun storeZero (2024, "Z") = some (compute_metrics rowsZero) ∧
    (compute_metrics rowsZero).map (fun e => e.daily_return) =
      [none, some FVal.pinf] ∧
    data_quality_checks (toFrame (compute_metrics rowsZero)) = true := by
  refine ⟨?_, ?_, data_quality_checks_toFrame _⟩
  · show processKey (some rowsZero) = some (compute_metrics rowsZero)
    show (if data_quality_checks (toFrame (compute_metrics rowsZero))
      then some (compute_metrics rowsZero) else none) =
        some (compute_metrics rowsZero)
    rw [data_quality_checks_toFrame]
    rfl
  · have hcm : compute_metrics rowsZero = enrichGroup rowsZero := by
      refine compute_metrics_single "Z" rowsZero (by decide) (by decide) ?_
      simp only [rowsZero, List.map_cons, List.map_nil, List.chain'_cons,
        List.chain'_singleton, and_true]
      decide
    rw [hcm]
    show (zipEnrich rowsZero (returnsOfCloses (rowsZero.map (fun r => r.close)))
      (rollingStdList rollingWindow 1
        (returnsOfCloses (rowsZero.map (fun r => r.close))))).map
          (fun e => e.daily_return) = _
    rw [zipEnrich_map_dr _ _ _
      (by rw [returnsOfCloses_length, List.length_map])
      (by rw [rollingStdList_length])]
    show [none, some (pctVal 0 5)] = [none, some FVal.pinf]
    have hpv : pctVal 0 5 = FVal.pinf := by
      unfold pctVal
      rw [if_pos rfl, if_pos (by norm_num : (0 : ℚ) < 5)]
    rw [hpv]

/-- C8 (amended): for any two-row single-instrument partition in date
order whose first close is 0 and second close positive, the computed
daily_return of the second row is positive infinity, the data-quality
gate passes the enriched frame, and process_ticker publishes it: the
divide-by-zero input is silently propagated as an infinity, not reported. -/
theorem zero_close_inf_published (r1 r2 : RawRow)
    (ht : r2.ticker = r1.ticker) (hd : dateLt r1.date r2.date)
    (hz : r1.close = 0) (hp : 0 < r2.close) :
    (compute_metrics [r1, r2]).map (fun e => e.daily_return) =
      [none, some FVal.pinf] ∧
    data_quality_checks (toFrame (compute_metrics [r1, r2])) = true ∧
    processKey (some [r1, r2]) = some (compute_metrics [r1, r2]) := by
  have hcm : compute_metrics [r1, r2] = enrichGroup [r1, r2] := by
    refine compute_metrics_single r1.ticker [r1, r2] (by simp) ?_ ?_
    · intro r hr
      rcases List.mem_cons.mp hr with rfl | hr
      · rfl
      · rcases List.mem_cons.mp hr with rfl | hr
        · exact ht
        · cases hr
    · simpa using hd
  have hpv : pctVal r1.close r2.close = FVal.pinf := by
    unfold pctVal
    rw [hz, if_pos rfl, if_pos hp]
  have hdr : (compute_metrics [r1, r2]).map (fun e => e.daily_return) =
      [none, some FVal.pinf] := by
    rw [hcm]
    show (zipEnrich [r1, r2] (returnsOfCloses [r1.close, r2.close])
      (rollingStdList rollingWindow 1 (returnsOfCloses [r1.close, r2.close]))).map
        (fun e => e.daily_return) = [none, some FVal.pinf]
    rw [zipEnrich_map_dr _ _ _ (by simp [returnsOfCloses, returnsGo])
      (by simp [rollingStdList_length])]
    show [none, some (pctVal r1.close r2.close)] = [none, some FVal.pinf]
    rw [hpv]
  refine ⟨hdr, data_quality_checks_toFrame _, ?_⟩
  show (if data_quality_checks (toFrame (compute_metrics [r1, r2]))
    then some (compute_metrics [r1, r2]) else none) =
      some (compute_metrics [r1, r2])
  rw [data_quality_checks_toFrame]
  rfl

/-- C8, witness for the amended theorem at the concrete zero-close
partition. -/
theorem zero_close_inf_published_witness :
    (compute_metrics [⟨"Z", dJan, 0, 0, 0, 0, 1, 0⟩,
        ⟨"Z", dFeb, 5, 5, 5, 5, 1, 0⟩]).map (fun e => e.daily_return) =
      [none, some FVal.pinf] ∧
    data_quality_checks (toFrame (compute_metrics
      [⟨"Z", dJan, 0, 0, 0, 0, 1, 0⟩, ⟨"Z", dFeb, 5, 5, 5, 5, 1, 0⟩])) = true ∧
    processKey (some [⟨"Z", dJan, 0, 0, 0, 0, 1, 0⟩,
        ⟨"Z", dFeb, 5, 5, 5, 5, 1, 0⟩]) =
      some (compute_metrics [⟨"Z", dJan, 0, 0, 0, 0, 1, 0⟩,
        ⟨"Z", dFeb, 5, 5, 5, 5, 1, 0⟩]) :=
  zero_close_inf_published _ _ (by decide) (by decide) (by decide) (by decide)

/-! ### C9 -/

/-- C9: on any enriched frame missing the date column the gate fails and
its reported violations name date among the missing columns; such a frame
is not published; and the transform stage processes each (year, ticker)
key from that key's raw partition alone, so one partition's gate failure
cannot affect what is written for any other key. -/
theorem quality_gate_missing_date (f : Frame)
    (hmiss : "date" ∉ colNames f) :
    (dqcFull f).1 = false ∧
    (∃ ms, Violation.missingCols ms ∈ (dqcFull f).2 ∧ "date" ∈ ms) ∧
    publishStep f = none ∧
    (∀ (s1 s2 : Store) (k : Nat × String), s1 k = s2 k →
      transformRun s1 k = transformRun s2 k) := by
  have hdm : "date" ∈ (expectedSchema.map (fun p => p.1)).filter
      (fun n => !(n ∈ colNames f)) := by
    refine List.mem_filter.mpr ⟨by decide, ?_⟩
    simp [hmiss]
  have hfull : ∃ m ms, dqcFull f =
      (false, [Violation.missingCols (m :: ms)]) ∧ "date" ∈ m :: ms := by
    cases hm : (expectedSchema.map (fun p => p.1)).filter
        (fun n => !(n ∈ colNames f)) with
    | nil => rw [hm] at hdm; cases hdm
    | cons m ms =>
      refine ⟨m, ms, ?_, by rw [← hm]; exact hdm⟩
      unfold dqcFull
      rw [hm]
  obtain ⟨m, ms, hfl, hdin⟩ := hfull
  refine ⟨by rw [hfl], ⟨m :: ms, by rw [hfl]; simp, hdin⟩, ?_, ?_⟩
  · unfold publishStep data_quality_checks
    rw [hfl]
    rfl
  · intro s1 s2 k hk
    unfold transformRun
    rw [hk]

/-- C9, witness: a frame holding only a close column fails the gate and
is not published. -/
theorem quality_gate_missing_date_witness :
    (dqcFull ⟨[⟨"close", DType.dtFloat64, []⟩]⟩).1 = false ∧
    publishStep ⟨[⟨"close", DType.dtFloat64, []⟩]⟩ = none :=
  ⟨(quality_gate_missing_date ⟨[⟨"close", DType.dtFloat64, []⟩]⟩ (by decide)).1,
   (quality_gate_missing_date ⟨[⟨"close", DType.dtFloat64, []⟩]⟩
     (by decide)).2.2.1⟩

/-! ### Loader instances -/

/-- The current run date and an earlier date of the same year. -/
def dRun : Date := ⟨2025, 50⟩

def dPrev : Date := ⟨2025, 40⟩

/-- The stored row for (X, today) and its revised enriched counterpart. -/
def eXold : EnrichedRow := ⟨⟨"X", dRun, 1, 1, 1, 100, 10, 0⟩, none, none⟩

def eXnew : EnrichedRow := ⟨⟨"X", dRun, 1, 1, 1, 101, 10, 1⟩, some (FVal.fin 1), none⟩

def estoreC2 : EStore := fun k => if k = (2025, "X") then some [eXnew] else none

def estoreC4 : EStore := fun k => if k = (2025, "X") then some [eXold] else none

def eYprev : EnrichedRow := ⟨⟨"Y", dPrev, 1, 1, 1, 50, 10, 0⟩, none, none⟩

def eYnew : EnrichedRow := ⟨⟨"Y", dRun, 1, 1, 1, 51, 10, 1⟩, some (FVal.fin 2), none⟩

def tableC3 : Table := [eXold, eYprev]

def estoreC3 : EStore := fun k => if k = (2025, "Y") then some [eYprev, eYnew] else none

/-- Unfolding a load run whose collected frame list is empty. -/
theorem loadRun_of_collect_nil {table : Table} {store : EStore}
    {years : List Nat} {tickers : List String} {today : Date}
    {lat : List (String × Date)} {result : Table}
    (hc : collectFrames store years tickers lat = [])
    (h : LoadRun table store years tickers today lat result) :
    result = delToday table today := by
  unfold LoadRun at h
  rw [hc] at h
  exact h

/-- Unfolding a load run whose collected frame list is nonempty. -/
theorem loadRun_of_collect_cons {table : Table} {store : EStore}
    {years : List Nat} {tickers : List String} {today : Date}
    {lat : List (String × Date)} {result : Table}
    {d : List EnrichedRow} {ds : List (List EnrichedRow)}
    (hc : collectFrames store years tickers lat = d :: ds)
    (h : LoadRun table store years tickers today lat result) :
    ∃ u, DedupBy kTD ((d :: ds).flatten) u ∧
      result = delToday table today ++ u := by
  unfold LoadRun at h
  rw [hc] at h
  exact h

/-! ### C2 -/

/-- C2: the table holds a row for (X, d) with d the run date, the
enriched store holds a revised row for (X, d), and one loader run leaves
ZERO rows for (X, d): the delete removes the prior row, but the
high-water-mark filter — computed from the pre-delete table, with a
strict date comparison — drops the revised row, so it is never appended.
The claim that exactly one revised row remains is false on the code. -/
theorem loader_revised_today_row_lost :
    mainLoadRun [eXold] estoreC2 [2025] ["X"] dRun [] ∧
    (∀ r, mainLoadRun [eXold] estoreC2 [2025] ["X"] dRun r →
      r.countP (fun e => kTD e == ("X", dRun)) = 0) ∧
    ([eXold] : Table).countP (fun e => kTD e == ("X", dRun)) = 1 ∧
    eXnew.raw.close ≠ eXold.raw.close := by
  refine ⟨?_, ?_, by decide, by decide⟩
  · show LoadRun [eXold] estoreC2 [2025] ["X"] dRun (get_latest_dates [eXold]) []
    unfold LoadRun
    rw [show collectFrames estoreC2 [2025] ["X"] (get_latest_dates [eXold]) =
      [] from rfl]
    rfl
  · intro r h
    have hr : r = delToday [eXold] dRun :=
      loadRun_of_collect_nil (show collectFrames estoreC2 [2025] ["X"]
        (get_latest_dates [eXold]) = [] from rfl) h
    rw [hr]
    rfl

/-- C2, witness: the loader run of the theorem applied at its own empty
result. -/
theorem loader_revised_today_row_lost_witness :
    (([] : Table)).countP (fun e => kTD e == ("X", dRun)) = 0 :=
  loader_revised_today_row_lost.2.1 [] loader_revised_today_row_lost.1

/-! ### C3 -/

/-- C3: the delete of the run date commits in its own transaction before
the append runs, so the intermediate table state — X's today row already
deleted, Y's new today row not yet appended — is reachable on a failure
between the two commits, and differs from both the initial and the final
state: the delete and the append are not one transaction. -/
theorem loader_delete_append_not_atomic :
    mainLoadRun tableC3 estoreC3 [2025] ["X", "Y"] dRun [eYprev, eYnew] ∧
    loadCommitStates tableC3 estoreC3 [2025] ["X", "Y"] dRun
      (get_latest_dates tableC3) = [tableC3, [eYprev], [eYprev, eYnew]] ∧
    ([eYprev] : Table) ≠ tableC3 ∧
    ([eYprev] : Table) ≠ [eYprev, eYnew] ∧
    eXold ∈ tableC3 ∧ eXold ∉ ([eYprev] : Table) ∧
    eYnew ∉ ([eYprev] : Table) := by
  refine ⟨?_, by rfl, by decide, by decide, by decide, by decide, by decide⟩
  show LoadRun tableC3 estoreC3 [2025] ["X", "Y"] dRun
    (get_latest_dates tableC3) [eYprev, eYnew]
  unfold LoadRun
  rw [show collectFrames estoreC3 [2025] ["X", "Y"]
    (get_latest_dates tableC3) = [[eYnew]] from rfl]
  exact ⟨[eYnew], by decide, rfl⟩

/-! ### C4 -/

/-- C4: with the same enriched store and no new upstream data, a first
loader run on an empty table loads the single today row, and a second run
on the same day deletes that row and appends nothing — the filter,
computed before the delete, blocks the re-insert — so the row count drops
from 1 to 0 instead of staying unchanged. -/
theorem loader_second_run_drops_today_rows :
    mainLoadRun [] estoreC4 [2025] ["X"] dRun [eXold] ∧
    (∀ r, mainLoadRun [] estoreC4 [2025] ["X"] dRun r → r = [eXold]) ∧
    (∀ r, mainLoadRun [eXold] estoreC4 [2025] ["X"] dRun r → r = []) ∧
    ([eXold] : Table).length = 1 := by
  refine ⟨?_, ?_, ?_, rfl⟩
  · show LoadRun [] estoreC4 [2025] ["X"] dRun (get_latest_dates []) [eXold]
    unfold LoadRun
    rw [show collectFrames estoreC4 [2025] ["X"] (get_latest_dates []) =
      [[eXold]] from rfl]
    exact ⟨[eXold], by decide, rfl⟩
  · intro r h
    obtain ⟨u, hu, hr⟩ := loadRun_of_collect_cons
      (show collectFrames estoreC4 [2025] ["X"] (get_latest_dates []) =
        [[eXold]] from rfl) h
    have hu2 : u = [eXold] := dedupBy_singleton kTD eXold u hu
    rw [hu2] at hr
    exact hr
  · intro r h
    exact loadRun_of_collect_nil (show collectFrames estoreC4 [2025] ["X"]
      (get_latest_dates [eXold]) = [] from rfl) h

/-- C4, witness: the second run of the theorem taken at its deterministic
result. -/
theorem loader_second_run_drops_today_rows_witness :
    loadRunFirst [eXold] estoreC4 [2025] ["X"] dRun
      (get_latest_dates [eXold]) = [] :=
  loader_second_run_drops_today_rows.2.2.1 _
    (loadRunFirst_spec [eXold] estoreC4 [2025] ["X"] dRun
      (get_latest_dates [eXold]))

/-! ### C10 -/

/-- C10: whatever rows survive the high-water-mark filter from the
scanned year partitions, the batch a load run appends after the delete
has pairwise-distinct (ticker, date) keys: the concatenation is
deduplicated before the write. -/
theorem loader_append_unique_keys (table : Table) (store : EStore)
    (years : List Nat) (tickers : List String) (today : Date)
    (lat : List (String × Date)) (result : Table)
    (h : LoadRun table store years tickers today lat result) :
    ∃ appended, result = delToday table today ++ appended ∧
      (appended.map kTD).Nodup := by
  cases hc : collectFrames store years tickers lat with
  | nil =>
    have hr : result = delToday table today := loadRun_of_collect_nil hc h
    exact ⟨[], by rw [hr, List.append_nil], by simp⟩
  | cons d ds =>
    obtain ⟨u, hu, hr⟩ := loadRun_of_collect_cons hc h
    exact ⟨u, hr, hu.1⟩

/-- C10, witness at a concrete run that appends one row. -/
theorem loader_append_unique_keys_witness :
    ∃ appended, loadRunFirst [] estoreC4 [2025] ["X"] dRun [] =
      delToday [] dRun ++ appended ∧ (appended.map kTD).Nodup :=
  loader_append_unique_keys [] estoreC4 [2025] ["X"] dRun [] _
    (loadRunFirst_spec [] estoreC4 [2025] ["X"] dRun [])

end StockEtl
